import Mathlib

/-!
# Verification of the PSI content pipeline (`psi.js`)

Shallow embedding of the segmentation, exchange-orchestration and
reconstruction code of the `html-private-set-intersection` repository,
together with theorems settling the frozen claims about it.

Strings are modelled as lists of characters; machine integers as `Nat`/`Int`.
Each definition mirrors one function (or inline code region) of `src/psi.js`;
the originating lines are named in the doc comments.
-/

namespace Psi

/-- The character class of the JS regex `/[a-zA-Z0-9]/` used by the word-mode
segmenter and the word-mode reconstruction walkers (`psi.js` line 93). -/
def isAlphanumeric (c : Char) : Bool :=
  (97 ≤ c.toNat && c.toNat ≤ 122) ||
  (65 ≤ c.toNat && c.toNat ≤ 90) ||
  (48 ≤ c.toNat && c.toNat ≤ 57)

/-- The character class of the JS regex `/\s/` (ECMAScript WhiteSpace plus
LineTerminator), used for whitespace tests and for `String.prototype.trim`. -/
def jsIsSpace (c : Char) : Bool :=
  c.toNat == 32 || (9 ≤ c.toNat && c.toNat ≤ 13) || c.toNat == 160 ||
  c.toNat == 5760 || (8192 ≤ c.toNat && c.toNat ≤ 8202) ||
  c.toNat == 8232 || c.toNat == 8233 || c.toNat == 8239 ||
  c.toNat == 8287 || c.toNat == 12288 || c.toNat == 65279

/-- Word-mode segmentation loop of `readFileContent` (`psi.js` lines 85–116):
scan left to right accumulating `currentWord`; a non-alphanumeric character
flushes the accumulated word, then pushes `' '` for a whitespace character
(the code pushes a literal space, not the character itself) or the character
itself for punctuation; a trailing word is flushed at the end. -/
def segmentWordGo : List Char → List Char → List (List Char)
  | [], currentWord => if currentWord = [] then [] else [currentWord]
  | c :: rest, currentWord =>
    if isAlphanumeric c then
      segmentWordGo rest (currentWord ++ [c])
    else
      (if currentWord = [] then [] else [currentWord]) ++
      (if jsIsSpace c then [[' ']] else [[c]]) ++
      segmentWordGo rest []

/-- The word-mode Element sequence of `readFileContent` (`psi.js` word case). -/
def segmentWord (content : List Char) : List (List Char) :=
  segmentWordGo content []

/-- Source content with every JS-whitespace character replaced by a single
space: the exact image of the word segmenter's token concatenation. -/
def wsNormalize (content : List Char) : List Char :=
  content.map (fun c => if jsIsSpace c then ' ' else c)

/-- Model of `content.split(/\r?\n/)` (`psi.js` lines 80, 281): split on `"\n"`,
consuming an immediately preceding `"\r"`; a lone `"\r"` stays in its line. -/
def splitLinesGo : List Char → List Char → List (List Char)
  | [], acc => [acc.reverse]
  | '\r' :: '\n' :: rest, acc => acc.reverse :: splitLinesGo rest []
  | '\n' :: rest, acc => acc.reverse :: splitLinesGo rest []
  | c :: rest, acc => splitLinesGo rest (c :: acc)

def splitLines (content : List Char) : List (List Char) :=
  splitLinesGo content []

/-- Model of `String.prototype.trim`: strip JS whitespace from both ends. -/
def jsTrim (s : List Char) : List Char :=
  ((s.dropWhile jsIsSpace).reverse.dropWhile jsIsSpace).reverse

/-- The filter `line => line.trim().length > 0` (`psi.js` lines 80, 286). -/
def lineKept (l : List Char) : Bool :=
  decide (0 < (jsTrim l).length)

/-- Line-mode Element sequence of `readFileContent` (`psi.js` line 80):
the lines that are non-empty after trimming, in original order. -/
def segmentLine (content : List Char) : List (List Char) :=
  (splitLines content).filter lineKept

/-- Model of `lines.slice(0, lineIdx).filter(l => l.trim().length > 0).length`
(`psi.js` line 286): the filtered element index recomputed on the fly. -/
def lineElementIdx (content : List Char) (lineIdx : Nat) : Nat :=
  (((splitLines content).take lineIdx).filter lineKept).length

def GREEN : List Char := ['\x1b', '[', '3', '2', 'm']

def RED : List Char := ['\x1b', '[', '3', '1', 'm']

def RESET : List Char := ['\x1b', '[', '0', 'm']

def colorFor (member : Bool) : List Char :=
  if member then GREEN else RED

/-- Line-mode highlight reconstruction (`psi.js` lines 279–291).  The result
is the sequence of lines printed by `console.log`, in order; `member i`
models `indexSet.has(i)`.  A line that is empty after trimming prints the
empty string; any other line prints colored by membership of its recomputed
element index. -/
def highlightLines (member : Nat → Bool) (content : List Char) :
    List (List Char) :=
  (splitLines content).enum.map (fun p =>
    if lineKept p.2 then
      colorFor (member (lineElementIdx content p.1)) ++ p.2 ++ RESET
    else [])

/-- The 62-character filler alphabet of `createConsistentRedaction`
(`psi.js` line 23). -/
def redactionChars : List Char :=
  "abcdefghijklmnopqrstuvwxyzABCDEFGHIJKLMNOPQRSTUVWXYZ0123456789".toList

/-- Value of one hexadecimal digit character, or `none` for a non-digit. -/
def hexDigitVal (c : Char) : Option Nat :=
  if 48 ≤ c.toNat ∧ c.toNat ≤ 57 then some (c.toNat - 48)
  else if 97 ≤ c.toNat ∧ c.toNat ≤ 102 then some (c.toNat - 87)
  else if 65 ≤ c.toNat ∧ c.toNat ≤ 70 then some (c.toNat - 55)
  else none

/-- Model of `parseInt(s, 16)` on the two-character windows `hash.substr(i, 2)` that
`createConsistentRedaction` passes it: the longest prefix of hex digits is
parsed; `none` models NaN (first character not a hex digit). -/
def parseHex2 : List Char → Option Nat
  | [] => none
  | [c] => hexDigitVal c
  | c :: d :: _ =>
    match hexDigitVal c with
    | none => none
    | some hc =>
      match hexDigitVal d with
      | none => some hc
      | some hd => some (16 * hc + hd)

/-- One iteration of the filler loop of `createConsistentRedaction`
(`psi.js` lines 27–33): `hashIndex = i % (hash.length - 1)`,
`value = parseInt(hash.substr(hashIndex, 2), 16)`,
`result += chars[value % chars.length]`.  When `value` is NaN (the window
does not start with a hex digit) JS appends `chars[NaN]`, i.e. the string
`"undefined"`; this cannot occur for an actual SHA-256 hex digest. -/
def redactionStep (hash : List Char) (i : Nat) : List Char :=
  match parseHex2 ((hash.drop (i % (hash.length - 1))).take 2) with
  | some value => [redactionChars.getD (value % redactionChars.length) 'u']
  | none => "undefined".toList

/-- The cache-miss computation of `createConsistentRedaction` (`psi.js`
lines 20–33). The SHA-256 hex digest is supplied as a function parameter:
`hashHex (text ++ salt)` models the external
`crypto.createHash('sha256').update(text + salt).digest('hex')`. -/
def redactionBody (hashHex : List Char → List Char) (text salt : List Char) :
    List Char :=
  ((List.range text.length).map (redactionStep (hashHex (text ++ salt)))).flatten

/-- The module-level `redactionCache` Map (`psi.js` line 41), modelled as an
association list keyed by the exact text (`cacheKey = text`, line 14). -/
def RedactionCache : Type := List (List Char × List Char)

def cacheLookup : RedactionCache → List Char → Option (List Char)
  | [], _ => none
  | (k, v) :: rest, key => if k = key then some v else cacheLookup rest key

/-- Model of `createConsistentRedaction` (`psi.js` lines 12–38): return the cached
filler when the text was redacted before, otherwise compute the filler from
the hash and record it in the cache. -/
def createConsistentRedaction (hashHex : List Char → List Char)
    (cache : RedactionCache) (text salt : List Char) :
    List Char × RedactionCache :=
  match cacheLookup cache text with
  | some r => (r, cache)
  | none => (redactionBody hashHex text salt,
      (text, redactionBody hashHex text salt) :: cache)

/-- The default salt `'psi-redaction-salt-8675309'` (`psi.js` line 12); every
caller in `psi.js` uses it. -/
def defaultSalt : List Char := "psi-redaction-salt-8675309".toList

/-- A well-formed hex-digest function: 64 hex characters, as SHA-256's
`digest('hex')` always returns. -/
def IsHexDigest (hashHex : List Char → List Char) : Prop :=
  ∀ s, (hashHex s).length = 64 ∧ ∀ c ∈ hashHex s, (hexDigitVal c).isSome

/-- Every cache entry is the salt-determined filler of its key: the state
invariant of a run (all `psi.js` calls use the one default salt, and entries
are inserted only by `createConsistentRedaction` itself). -/
def CacheConsistent (hashHex : List Char → List Char) (salt : List Char)
    (cache : RedactionCache) : Prop :=
  ∀ k v, cacheLookup cache k = some v → v = redactionBody hashHex k salt

/-- Outcome record of one incremental micro-session as built by the client
(`psi.js` lines 1861–1867). -/
structure TileResult where
  idx : Nat
  intersect : Bool
  tileBytes : Option (List Nat)
deriving DecidableEq

/-- Per-micro-session response handling of the incremental client
(`psi.js` lines 1861–1867): status 200 records membership with the payload;
every other status value — the protocol's 204, but equally 400, 500 or any
malformed status — records plain non-membership.  The function is total:
the code has no error outcome for a micro-session's HTTP status. -/
def tileOutcome (i : Nat) (status : Nat) (bodyBytes : List Nat) : TileResult :=
  if status = 200 then ⟨i, true, some bodyBytes⟩ else ⟨i, false, none⟩

/-- Result of the bulk client's derivation step. -/
inductive ClientResult where
  | size : Nat → ClientResult
  | membership : List Nat → ClientResult
deriving DecidableEq

/-- The bulk client's derivation step (`psi.js` lines 262–264 and 473–478):
`revealIntersection` selects `client.getIntersection` (a list of indices
into the client's own Element sequence) or `client.getIntersectionSize`
(a scalar count).  The two Oracle calls are function parameters — the PSI
library is the external Intersection Oracle. -/
def deriveClientResult {Setup Resp : Type} (revealIntersection : Bool)
    (getIntersection : Setup → Resp → List Nat)
    (getIntersectionSize : Setup → Resp → Nat)
    (serverSetup : Setup) (serverResponse : Resp) : ClientResult :=
  if revealIntersection then
    ClientResult.membership (getIntersection serverSetup serverResponse)
  else
    ClientResult.size (getIntersectionSize serverSetup serverResponse)

/-- Value of one decimal digit character, or `none` for a non-digit. -/
def digitVal (c : Char) : Option Nat :=
  if 48 ≤ c.toNat ∧ c.toNat ≤ 57 then some (c.toNat - 48) else none

def parseDigitsGo : List Char → Nat → Nat
  | [], acc => acc
  | c :: rest, acc =>
    match digitVal c with
    | some d => parseDigitsGo rest (acc * 10 + d)
    | none => acc

/-- Longest decimal-digit prefix; `none` when there is none. -/
def parseDigits : List Char → Option Nat
  | [] => none
  | c :: rest =>
    match digitVal c with
    | some d => some (parseDigitsGo rest d)
    | none => none

/-- Model of `parseInt(s, 10)`: skip leading whitespace, read an optional sign, then
the longest decimal-digit prefix; `none` models NaN (no digits). -/
def jsParseInt (s : List Char) : Option Int :=
  match s.dropWhile jsIsSpace with
  | '-' :: rest => (parseDigits rest).map (fun n => -(n : Int))
  | '+' :: rest => (parseDigits rest).map (fun n => (n : Int))
  | t => (parseDigits t).map (fun n => (n : Int))

/-- Model of `url.searchParams.get('tile_idx') || '-1'` (`psi.js` line 1792): an
absent parameter — and, `''` being falsy, an empty one — defaults to
`'-1'`. -/
def tileIdxParam (q : Option (List Char)) : List Char :=
  match q with
  | none => ['-', '1']
  | some s => if s = [] then ['-', '1'] else s

/-- The 100-byte RGBA payload the server returns for a member tile
(`psi.js` lines 1801–1815): the pixels of tile `(tx, ty)` of the server's
image, row-major, four channel bytes per pixel. -/
def tileBuffer (data : List Nat) (width tx ty tileSize : Nat) : List Nat :=
  ((List.range tileSize).map (fun y =>
    ((List.range tileSize).map (fun x =>
      [data.getD (((ty * tileSize + y) * width + (tx * tileSize + x)) * 4) 0,
       data.getD (((ty * tileSize + y) * width + (tx * tileSize + x)) * 4 + 1) 0,
       data.getD (((ty * tileSize + y) * width + (tx * tileSize + x)) * 4 + 2) 0,
       data.getD (((ty * tileSize + y) * width + (tx * tileSize + x)) * 4 + 3) 0])).flatten)).flatten

/-- The incremental server's `POST /get_tile_intersection` handler
(`psi.js` lines 1791–1822), as a pair (status, body bytes).  `q` is the raw
`tile_idx` query parameter, `body` the request body text.  `tileInfo[i]`
stores `(i % tilesAcross, i / tilesAcross)` by construction of
`readImageTiles`.  When `parseInt` yields NaN both range comparisons are
false in JS and the body is compared against `serverElements[NaN]`
(undefined), which never equals a string: the response is 204. -/
def getTileIntersection (serverElements : List (List Char))
    (serverData : List Nat) (serverWidth tilesAcross : Nat)
    (q : Option (List Char)) (body : List Char) : Nat × Option (List Nat) :=
  match jsParseInt (tileIdxParam q) with
  | none => (204, none)
  | some v =>
    if v < 0 ∨ (serverElements.length : Int) ≤ v then (400, none)
    else if body = serverElements.getD v.toNat [] then
      (200, some (tileBuffer serverData serverWidth
        (v.toNat % tilesAcross) (v.toNat / tilesAcross) 5))
    else (204, none)

/-- Model of `Math.round(sum / count)` on non-negative operands (`psi.js` lines
1744–1747, 1944–1946): round half away from zero. -/
def jsRound (sum count : Nat) : Nat :=
  (2 * sum + count) / (2 * count)

structure Rgba where
  r : Nat
  g : Nat
  b : Nat
  a : Nat
deriving DecidableEq

/-- Sum of channel `ch` (0 = R … 3 = A) over the pixels of tile `(tx, ty)`
in the current buffer — the accumulation loop of `getTileAverageColor`
(`psi.js` lines 1729–1742). -/
def tileChannelSum (data : List Nat) (tx ty tileSize width ch : Nat) : Nat :=
  (((List.range tileSize).map (fun y =>
    (List.range tileSize).map (fun x =>
      data.getD ((((ty * tileSize + y) * width + (tx * tileSize + x)) * 4) + ch)
        0))).flatten).sum

/-- Model of `getTileAverageColor` (`psi.js` lines 1728–1749): channel-wise rounded
mean over the `tileSize × tileSize` pixels of a tile, read from the current
buffer. -/
def getTileAverageColor (data : List Nat) (tx ty tileSize width : Nat) :
    Rgba :=
  { r := jsRound (tileChannelSum data tx ty tileSize width 0) (tileSize * tileSize)
    g := jsRound (tileChannelSum data tx ty tileSize width 1) (tileSize * tileSize)
    b := jsRound (tileChannelSum data tx ty tileSize width 2) (tileSize * tileSize)
    a := jsRound (tileChannelSum data tx ty tileSize width 3) (tileSize * tileSize) }

/-- The four buffer writes for one pixel of a smoothed tile (`psi.js` lines
1958–1961): RGB from the computed color, alpha set to the literal 255. -/
def writePixel (data : List Nat) (idx : Nat) (c : Rgba) : List Nat :=
  (((data.set idx c.r).set (idx + 1) c.g).set (idx + 2) c.b).set (idx + 3) 255

/-- The tile rewrite loop of the smoothing pass (`psi.js` lines 1953–1963). -/
def fillTile (data : List Nat) (tx ty tileSize width : Nat) (c : Rgba) :
    List Nat :=
  (List.range tileSize).foldl (fun d y =>
    (List.range tileSize).foldl (fun d2 x =>
      writePixel d2 (((ty * tileSize + y) * width + (tx * tileSize + x)) * 4) c)
      d) data

/-- One iteration of the smoothing pass for tile index `i` (`psi.js` lines
1916–1964), operating in place on the current buffer.  A tile is taken as a
member exactly when the alpha byte of its top-left pixel is 255; `tileInfo`
stores `(i % tilesAcross, i / tilesAcross)` by construction of
`readImageTiles`. -/
def smoothTile (tilesAcross tilesDown tileSize width : Nat)
    (data : List Nat) (i : Nat) : List Nat :=
  let tx := i % tilesAcross
  let ty := i / tilesAcross
  if data.getD (((ty * tileSize) * width + tx * tileSize) * 4 + 3) 0 ≠ 255 then
    let neighborCoords :=
      (if 0 < tx then [(tx - 1, ty)] else []) ++
      (if tx < tilesAcross - 1 then [(tx + 1, ty)] else []) ++
      (if 0 < ty then [(tx, ty - 1)] else []) ++
      (if ty < tilesDown - 1 then [(tx, ty + 1)] else [])
    let neighborColors := (neighborCoords.filter (fun p =>
        data.getD (((p.2 * tileSize) * width + p.1 * tileSize) * 4 + 3) 0
          == 255)).map
      (fun p => getTileAverageColor data p.1 p.2 tileSize width)
    let avgColor : Rgba :=
      if 0 < neighborColors.length then
        { r := jsRound (neighborColors.map Rgba.r).sum neighborColors.length
          g := jsRound (neighborColors.map Rgba.g).sum neighborColors.length
          b := jsRound (neighborColors.map Rgba.b).sum neighborColors.length
          a := 255 }
      else ⟨255, 255, 255, 255⟩
    fillTile data tx ty tileSize width avgColor
  else data

/-- The full smoothing pass (`psi.js` lines 1916–1966): iterate over all
tile indices in row-major order, rewriting the one shared buffer in place. -/
def smoothingPass (tilesAcross tilesDown tileSize width : Nat)
    (data : List Nat) : List Nat :=
  (List.range (tilesAcross * tilesDown)).foldl
    (smoothTile tilesAcross tilesDown tileSize width) data

/-- Pre-smoothing client buffer of a 15×5 image (three 5×5 tiles in a row):
tile 0 is a member holding pixels `(10,20,30,255)`; tiles 1 and 2 are
non-members, zeroed by the results loop (`psi.js` lines 1894–1908). -/
def c2Image : List Nat :=
  ((List.range 75).map (fun p =>
    if p % 15 < 5 then [10, 20, 30, 255] else [0, 0, 0, 0])).flatten

/-- Highlight word walker (`psi.js` lines 292–339), instrumented with its
index-consumption trace: besides the printed string it returns, in walk
order, one `(tokenIdx, element)` pair per consumed index, where `element`
is the word-mode Element whose membership `indexSet.has(tokenIdx)` tests
for the emitted unit — the accumulated word at a flush, the segmenter's
space token `" "` for a whitespace character (whose lookup result the code
computes and discards, emitting the character uncolored), and the character
itself for punctuation.  The trailing word consumes the final index without
the counter increment (`psi.js` lines 333–337). -/
def highlightWordGo (member : Nat → Bool) :
    List Char → List Char → Nat → List Char × List (Nat × List Char)
  | [], currentWord, tokenIdx =>
    if currentWord = [] then ([], [])
    else (colorFor (member tokenIdx) ++ currentWord ++ RESET,
      [(tokenIdx, currentWord)])
  | c :: rest, currentWord, tokenIdx =>
    if isAlphanumeric c then
      highlightWordGo member rest (currentWord ++ [c]) tokenIdx
    else
      let flush : List Char × List (Nat × List Char) :=
        if currentWord = [] then ([], [])
        else (colorFor (member tokenIdx) ++ currentWord ++ RESET,
          [(tokenIdx, currentWord)])
      let tokenIdx1 := if currentWord = [] then tokenIdx else tokenIdx + 1
      let unit : List Char × List (Nat × List Char) :=
        if jsIsSpace c then ([c], [(tokenIdx1, [' '])])
        else (colorFor (member tokenIdx1) ++ [c] ++ RESET, [(tokenIdx1, [c])])
      let restOut := highlightWordGo member rest [] (tokenIdx1 + 1)
      (flush.1 ++ unit.1 ++ restOut.1, flush.2 ++ unit.2 ++ restOut.2)

/-- The word-mode highlight reconstruction of `runClient`
(`psi.js` lines 292–339): output string and index-consumption trace. -/
def highlightWord (member : Nat → Bool) (content : List Char) :
    List Char × List (Nat × List Char) :=
  highlightWordGo member content [] 0

/-- Redact word walker (`psi.js` lines 382–438), instrumented like
`highlightWordGo`.  `redactFn` is `createConsistentRedaction` as the pure
per-text function it evaluates to within a run (established by
`createConsistentRedaction_deterministic`).  A whitespace character consumes
its index with no membership lookup and is emitted unchanged
(`psi.js` lines 410–412). -/
def redactWordGo (member : Nat → Bool) (redactFn : List Char → List Char) :
    List Char → List Char → Nat → List Char × List (Nat × List Char)
  | [], currentWord, tokenIdx =>
    if currentWord = [] then ([], [])
    else ((if member tokenIdx then currentWord else redactFn currentWord),
      [(tokenIdx, currentWord)])
  | c :: rest, currentWord, tokenIdx =>
    if isAlphanumeric c then
      redactWordGo member redactFn rest (currentWord ++ [c]) tokenIdx
    else
      let flush : List Char × List (Nat × List Char) :=
        if currentWord = [] then ([], [])
        else ((if member tokenIdx then currentWord else redactFn currentWord),
          [(tokenIdx, currentWord)])
      let tokenIdx1 := if currentWord = [] then tokenIdx else tokenIdx + 1
      let unit : List Char × List (Nat × List Char) :=
        if jsIsSpace c then ([c], [(tokenIdx1, [' '])])
        else ((if member tokenIdx1 then [c] else redactFn [c]),
          [(tokenIdx1, [c])])
      let restOut := redactWordGo member redactFn rest [] (tokenIdx1 + 1)
      (flush.1 ++ unit.1 ++ restOut.1, flush.2 ++ unit.2 ++ restOut.2)

/-- The word-mode redact reconstruction of `runClient`
(`psi.js` lines 382–438): output string and index-consumption trace. -/
def redactWord (member : Nat → Bool) (redactFn : List Char → List Char)
    (content : List Char) : List Char × List (Nat × List Char) :=
  redactWordGo member redactFn content [] 0

/-- State of one worker of `runWithConcurrency` (`psi.js` lines 1757–1763):
`idle` at the loop head, `running k` between the synchronous claim
`const currentIndex = index; index++` of index `k` and the completion of
`await funcs[currentIndex]()`, `finished` once the while condition fails
and the worker's promise resolves. -/
inductive WorkerState where
  | idle
  | running (k : Nat)
  | finished
deriving DecidableEq

/-- Shared state of one `runWithConcurrency` run (`psi.js` lines
1754–1770): the shared `index` counter, the `results` array, the worker
array, and a log of completed executions in completion order (to state
the exactly-once property). -/
structure PoolState (α : Type) where
  nextIndex : Nat
  results : List (Option α)
  workers : List WorkerState
  log : List Nat

/-- Initial pool state: `index = 0`, no results, `limit` idle workers. -/
def initPool (α : Type) (n limit : Nat) : PoolState α :=
  ⟨0, List.replicate n none, List.replicate limit WorkerState.idle, []⟩

/-- Interleaving semantics of the pool.  JS is single-threaded and the read
and increment of `index` happen with no intervening `await`, so a claim is
one atomic step; execution of `funcs[k]` (modelled as the pure `f k`, one
micro-session) completes at a later step, writing `results[k]`.  A worker
whose while condition sees `index ≥ n` resolves.  The scheduler picks any
worker at each step. -/
inductive PoolStep {α : Type} (f : Nat → α) (n : Nat) :
    PoolState α → PoolState α → Prop
  | claim (s : PoolState α) (w : Nat)
      (hw : s.workers.get? w = some WorkerState.idle)
      (h : s.nextIndex < n) :
      PoolStep f n s
        { s with nextIndex := s.nextIndex + 1,
                 workers := s.workers.set w (WorkerState.running s.nextIndex) }
  | complete (s : PoolState α) (w k : Nat)
      (hw : s.workers.get? w = some (WorkerState.running k)) :
      PoolStep f n s
        { s with results := s.results.set k (some (f k)),
                 workers := s.workers.set w WorkerState.idle,
                 log := s.log ++ [k] }
  | exit (s : PoolState α) (w : Nat)
      (hw : s.workers.get? w = some WorkerState.idle)
      (h : ¬ s.nextIndex < n) :
      PoolStep f n s { s with workers := s.workers.set w WorkerState.finished }

/-- The barrier: `await Promise.all(workers)` has resolved, every worker finished.  The
smoothing pass of the incremental client (`psi.js` lines 1873, 1914–1966)
runs only after this barrier. -/
def PoolDone {α : Type} (s : PoolState α) : Prop :=
  ∀ w ∈ s.workers, w = WorkerState.finished

/-- Worker `w` currently holds claimed index `k`. -/
def RunsAt {α : Type} (s : PoolState α) (w k : Nat) : Prop :=
  s.workers.get? w = some (WorkerState.running k)

/-- Run invariant of the pool: every claimed index is either held by
exactly one running worker (result still empty, not yet logged) or fully
completed (result written, logged exactly once); unclaimed indices are
untouched; a finished worker implies the queue was exhausted. -/
structure PoolInv {α : Type} (f : Nat → α) (n limit : Nat)
    (s : PoolState α) : Prop where
  hres : s.results.length = n
  hwork : s.workers.length = limit
  hnext : s.nextIndex ≤ n
  hclaim : ∀ k, k < s.nextIndex →
    ((∃ w, RunsAt s w k) ∧ s.results.getD k none = none ∧
      s.log.count k = 0) ∨
    ((∀ w, ¬ RunsAt s w k) ∧ s.results.getD k none = some (f k) ∧
      s.log.count k = 1)
  huniq : ∀ w w' k, RunsAt s w k → RunsAt s w' k → w = w'
  hfresh : ∀ k, s.nextIndex ≤ k →
    (∀ w, ¬ RunsAt s w k) ∧ s.results.getD k none = none ∧
      s.log.count k = 0
  hfin : (∃ w, s.workers.get? w = some WorkerState.finished) →
    n ≤ s.nextIndex

theorem isAlphanumeric_not_space {c : Char} (h : isAlphanumeric c = true) :
    jsIsSpace c = false := by
  simp only [isAlphanumeric, Bool.or_eq_true, Bool.and_eq_true,
    decide_eq_true_eq] at h
  simp only [jsIsSpace, Bool.or_eq_false_iff, Bool.and_eq_false_iff,
    beq_eq_false_iff_ne, ne_eq, decide_eq_false_iff_not, not_le]
  omega

theorem segmentWordGo_join (content : List Char) (w : List Char) :
    (segmentWordGo content w).flatten = w ++ wsNormalize content := by
  induction content generalizing w with
  | nil =>
    by_cases hw : w = [] <;> simp [segmentWordGo, wsNormalize, hw]
  | cons c rest ih =>
    by_cases hc : isAlphanumeric c
    · have hs := isAlphanumeric_not_space hc
      simp [segmentWordGo, hc, ih, wsNormalize, hs]
    · by_cases hsp : jsIsSpace c <;>
        by_cases hw : w = [] <;>
        simp [segmentWordGo, hc, hsp, hw, ih, wsNormalize]

theorem segmentWordGo_tokens (content : List Char) (w : List Char)
    (hw : ∀ c ∈ w, isAlphanumeric c = true) :
    ∀ t ∈ segmentWordGo content w,
      t ≠ [] ∧ ((∀ c ∈ t, isAlphanumeric c = true) ∨
        ∃ c, t = [c] ∧ isAlphanumeric c = false) := by
  induction content generalizing w with
  | nil =>
    intro t ht
    by_cases hwe : w = []
    · simp [segmentWordGo, hwe] at ht
    · simp [segmentWordGo, hwe] at ht
      subst ht
      exact ⟨hwe, Or.inl hw⟩
  | cons c rest ih =>
    intro t ht
    by_cases hc : isAlphanumeric c
    · simp only [segmentWordGo, if_pos hc] at ht
      refine ih (w ++ [c]) ?_ t ht
      intro x hx
      rcases List.mem_append.mp hx with h | h
      · exact hw x h
      · simp at h; subst h; exact hc
    · simp only [segmentWordGo, if_neg hc, List.mem_append] at ht
      rcases ht with (ht | ht) | ht
      · by_cases hwe : w = [] <;> simp [hwe] at ht
        subst ht
        exact ⟨hwe, Or.inl hw⟩
      · by_cases hsp : jsIsSpace c <;> simp [hsp] at ht <;> subst ht
        · exact ⟨by simp, Or.inr ⟨' ', rfl, by decide⟩⟩
        · exact ⟨by simp, Or.inr ⟨c, rfl, by simpa using hc⟩⟩
      · exact ih [] (by simp) t ht

/-- C3 counterexample: the word segmenter turns a tab character into the
single-space token `" "`, so the concatenated token stream of the source
`"\t"` is `" "`, which is not byte-identical to the source. -/
theorem segmentWord_tab_not_byte_exact :
    segmentWord ['\t'] = [[' ']] ∧ (segmentWord ['\t']).flatten ≠ ['\t'] := by
  decide

/-- C3 (amended): in Word mode an alphanumeric run is one token (every token
is nonempty, and is either all-alphanumeric or a single non-alphanumeric
character), each whitespace character contributes the single-space token
`" "`, and the token stream concatenated in index order reproduces the source
with every whitespace character replaced by a space — byte-exact exactly when
every whitespace character of the source is already a space. -/
theorem segmentWord_join_wsNormalize (content : List Char) :
    (segmentWord content).flatten = wsNormalize content ∧
    ∀ t ∈ segmentWord content,
      t ≠ [] ∧ ((∀ c ∈ t, isAlphanumeric c = true) ∨
        ∃ c, t = [c] ∧ isAlphanumeric c = false) := by
  refine ⟨?_, segmentWordGo_tokens content [] (by simp)⟩
  simpa using segmentWordGo_join content []

/-- Witness for `segmentWord_join_wsNormalize` at the concrete source
`"a\tb"`. -/
theorem segmentWord_join_wsNormalize_witness :
    (segmentWord ['a', '\t', 'b']).flatten = wsNormalize ['a', '\t', 'b'] ∧
    ['a'] ≠ ([] : List Char) ∧ (∀ c ∈ ['a'], isAlphanumeric c = true) := by
  refine ⟨(segmentWord_join_wsNormalize ['a', '\t', 'b']).1, ?_⟩
  have h := (segmentWord_join_wsNormalize ['a', '\t', 'b']).2 ['a']
    (by decide)
  exact ⟨h.1, by decide⟩

theorem filter_take_get? {α : Type} (l : List α) (p : α → Bool) (k : Nat)
    (x : α) (h : l.get? k = some x) (hp : p x = true) :
    (l.filter p).get? ((l.take k).filter p).length = some x := by
  induction l generalizing k with
  | nil => simp at h
  | cons a xs ih =>
    cases k with
    | zero =>
      simp at h
      subst h
      simp [List.filter_cons, hp]
    | succ k =>
      simp only [List.get?_cons_succ] at h
      simp only [List.take_succ_cons, List.filter_cons]
      by_cases ha : p a
      · simp only [if_pos ha, List.length_cons, List.get?_cons_succ]
        exact ih k h
      · simp only [if_neg ha]
        exact ih k h

/-- C7 counterexample: on the source `"A\n \nB"` (middle line a single
space, hence blank after trimming) the highlight walk prints the middle
line as the empty string — the whitespace-only blank line is not emitted
untouched. -/
theorem highlightLines_blank_not_untouched :
    (splitLines ['A', '\n', ' ', '\n', 'B']).get? 1 = some [' '] ∧
    (highlightLines (fun _ => true) ['A', '\n', ' ', '\n', 'B']).get? 1 =
      some [] ∧
    ([] : List Char) ≠ [' '] := by
  decide

/-- C7 (amended): in Line mode the Element sequence is exactly the lines
non-empty after trimming, in original order; during highlight reconstruction
each non-blank line is classified by recomputing its filtered element index
on the fly (the count of non-blank lines strictly before it), that index
addresses exactly this line in the Element sequence, and each blank line is
emitted as an empty line (its whitespace content dropped), order preserved. -/
theorem highlightLines_line_mode (member : Nat → Bool) (content : List Char) :
    segmentLine content = (splitLines content).filter lineKept ∧
    (highlightLines member content).length = (splitLines content).length ∧
    ∀ k line, (splitLines content).get? k = some line →
      (if lineKept line then
        (highlightLines member content).get? k =
          some (colorFor (member (lineElementIdx content k)) ++ line ++ RESET) ∧
        (segmentLine content).get? (lineElementIdx content k) = some line
      else (highlightLines member content).get? k = some []) := by
  refine ⟨rfl, by simp [highlightLines], ?_⟩
  intro k line h
  have hk : k < (splitLines content).length := List.get?_eq_some.mp h |>.1
  have hget : (highlightLines member content).get? k =
      some (if lineKept line then
        colorFor (member (lineElementIdx content k)) ++ line ++ RESET
      else []) := by
    simp only [highlightLines, List.get?_map, List.get?_enum, h]
    rfl
  by_cases hkept : lineKept line
  · simp only [if_pos hkept]
    refine ⟨by simpa [hkept] using hget, ?_⟩
    exact filter_take_get? (splitLines content) lineKept k line h hkept
  · simp only [if_neg hkept]
    simpa [hkept] using hget

/-- Witness for `highlightLines_line_mode` at the concrete source
`"A\n\nB"`, line 0. -/
theorem highlightLines_line_mode_witness :
    ((splitLines ['A', '\n', '\n', 'B']).get? 0 = some ['A']) ∧
    (highlightLines (fun _ => false) ['A', '\n', '\n', 'B']).get? 0 =
      some (colorFor false ++ ['A'] ++ RESET) ∧
    (segmentLine ['A', '\n', '\n', 'B']).get? 0 = some ['A'] := by
  have h0 : (splitLines ['A', '\n', '\n', 'B']).get? 0 = some ['A'] := by
    decide
  have h := (highlightLines_line_mode (fun _ => false)
    ['A', '\n', '\n', 'B']).2.2 0 ['A'] h0
  rw [if_pos (by decide)] at h
  refine ⟨h0, ?_, h.2⟩
  have := h.1
  simpa [lineElementIdx, colorFor] using this

/-- C4: an out-of-range intersection index is silently ignored, not treated
as a fatal contract violation.  With three line Elements and the Oracle
reporting index 5 (outside `[0,3)`), the client builds `indexSet = {5}` with
no range check (`psi.js` line 270) and the reconstruction completes normally,
classifying every Element as a non-member. -/
theorem highlight_out_of_range_index_ignored :
    (segmentLine ['A', '\n', 'B', '\n', 'C']).length = 3 ∧
    ¬ (5 : Nat) < 3 ∧
    highlightLines (fun i => i == 5) ['A', '\n', 'B', '\n', 'C'] =
      [RED ++ ['A'] ++ RESET, RED ++ ['B'] ++ RESET, RED ++ ['C'] ++ RESET] := by
  decide

theorem parseHex2_isSome_of_head {c : Char} (rest : List Char)
    (h : (hexDigitVal c).isSome) : (parseHex2 (c :: rest)).isSome := by
  match rest with
  | [] => simpa [parseHex2] using h
  | d :: rest' =>
    simp only [parseHex2]
    cases hc : hexDigitVal c with
    | none => rw [hc] at h; simp at h
    | some vc => cases hd : hexDigitVal d <;> simp

theorem redactionStep_length (hash : List Char) (hlen : hash.length = 64)
    (hhex : ∀ c ∈ hash, (hexDigitVal c).isSome) (i : Nat) :
    (redactionStep hash i).length = 1 := by
  have hidx : i % (hash.length - 1) < hash.length := by
    have h63 : i % (hash.length - 1) < hash.length - 1 :=
      Nat.mod_lt _ (by omega)
    omega
  have hdrop : hash.drop (i % (hash.length - 1)) =
      hash[i % (hash.length - 1)] :: hash.drop (i % (hash.length - 1) + 1) :=
    List.drop_eq_getElem_cons hidx
  have hmem : hash[i % (hash.length - 1)] ∈ hash := List.getElem_mem hidx
  have hsome := parseHex2_isSome_of_head
    ((hash.drop (i % (hash.length - 1) + 1)).take 1)
    (hhex _ hmem)
  rw [redactionStep, hdrop, List.take_cons (show 0 < 2 by omega)]
  obtain ⟨v, hv⟩ := Option.isSome_iff_exists.mp hsome
  rw [hv]
  simp

/-- C5: redaction filler generation is deterministic and length-preserving.
Relative to any fixed digest function (SHA-256 is a pure external function)
and any cache state reachable in a run (every entry is the filler of its
key for the run's salt — true of the empty initial cache and preserved by
every call), `createConsistentRedaction` returns exactly the salt-determined
filler `redactionBody`, keeps the cache consistent, and returns a filler of
the same length as the input.  Hence two redactions of identical bytes
within one run, or in two runs with the same salt, are byte-identical. -/
theorem createConsistentRedaction_deterministic
    (hashHex : List Char → List Char) (hd : IsHexDigest hashHex)
    (salt : List Char) (cache : RedactionCache)
    (hc : CacheConsistent hashHex salt cache) (text : List Char) :
    (createConsistentRedaction hashHex cache text salt).1 =
      redactionBody hashHex text salt ∧
    CacheConsistent hashHex salt
      (createConsistentRedaction hashHex cache text salt).2 ∧
    (createConsistentRedaction hashHex cache text salt).1.length =
      text.length := by
  have hbodylen : ∀ t : List Char,
      (redactionBody hashHex t salt).length = t.length := by
    intro t
    obtain ⟨hlen, hhex⟩ := hd (t ++ salt)
    simp only [redactionBody, List.length_flatten, List.map_map]
    have : ∀ i ∈ List.range t.length,
        ((redactionStep (hashHex (t ++ salt))) i).length = 1 := fun i _ =>
      redactionStep_length _ hlen hhex i
    calc ((List.range t.length).map
            (List.length ∘ redactionStep (hashHex (t ++ salt)))).sum
        = ((List.range t.length).map (fun _ => 1)).sum := by
          refine congrArg List.sum (List.map_congr_left ?_)
          intro i hi
          simpa using this i hi
      _ = t.length := by simp [List.map_const]
  cases hlook : cacheLookup cache text with
  | some r =>
    have hr := hc text r hlook
    refine ⟨?_, ?_, ?_⟩ <;>
      simp only [createConsistentRedaction, hlook]
    · exact hr
    · exact hc
    · rw [hr]; exact hbodylen text
  | none =>
    refine ⟨?_, ?_, ?_⟩ <;>
      simp only [createConsistentRedaction, hlook]
    · intro k v hkv
      simp only [cacheLookup] at hkv
      by_cases hk : text = k
      · subst hk
        simp only [if_pos rfl] at hkv
        exact (Option.some_inj.mp hkv).symm
      · rw [if_neg hk] at hkv
        exact hc k v hkv
    · exact hbodylen text

/-- Witness for `createConsistentRedaction_deterministic`: the all-`'a'`
64-character digest function, the default salt, the empty run cache and the
text `"hi"`. -/
theorem createConsistentRedaction_deterministic_witness :
    (createConsistentRedaction (fun _ => List.replicate 64 'a') []
        ['h', 'i'] defaultSalt).1 =
      redactionBody (fun _ => List.replicate 64 'a') ['h', 'i'] defaultSalt ∧
    CacheConsistent (fun _ => List.replicate 64 'a') defaultSalt
      (createConsistentRedaction (fun _ => List.replicate 64 'a') []
        ['h', 'i'] defaultSalt).2 ∧
    (createConsistentRedaction (fun _ => List.replicate 64 'a') []
        ['h', 'i'] defaultSalt).1.length = (['h', 'i'] : List Char).length := by
  refine createConsistentRedaction_deterministic _ ?_ defaultSalt [] ?_ _
  · intro s
    refine ⟨by simp, ?_⟩
    intro c hcm
    rw [List.eq_of_mem_replicate hcm]
    decide
  · intro k v h
    simp [cacheLookup] at h

/-- C1: a non-success micro-session status is not propagated as a fatal
run-level error — the client records statuses 400 and 500 exactly as it
records the explicit non-membership status 204, namely as
`{intersect: false}` for that Element, silently turning protocol failures
into non-membership. -/
theorem tileOutcome_conflates_error_with_nonmembership :
    tileOutcome 0 400 [] = ⟨0, false, none⟩ ∧
    tileOutcome 0 500 [] = ⟨0, false, none⟩ ∧
    tileOutcome 0 400 [] = tileOutcome 0 204 [] := by
  decide

/-- C6: in SizeOnly mode (`revealIntersection = false`) the derivation step
returns only a scalar count, and it is independent of the index-list oracle:
replacing `getIntersection` by any function at all leaves the result
unchanged, so no code path of this mode computes, requests or constructs a
per-element index list. -/
theorem deriveClientResult_sizeOnly {Setup Resp : Type}
    (gi gi' : Setup → Resp → List Nat) (gs : Setup → Resp → Nat)
    (setup : Setup) (resp : Resp) :
    deriveClientResult false gi gs setup resp =
      ClientResult.size (gs setup resp) ∧
    deriveClientResult false gi gs setup resp =
      deriveClientResult false gi' gs setup resp := by
  simp [deriveClientResult]

/-- C8: for every `POST /get_tile_intersection` request whose `tile_idx`
parameter denotes an integer `v`: `v` outside `[0, N)` (N the server's
Element count) gives status 400; `v` in range with the request body equal to
the server's canonical Element bytes at index `v` gives 200 with the raw
tile payload bytes; `v` in range otherwise gives 204 with no body. -/
theorem getTileIntersection_protocol (serverElements : List (List Char))
    (serverData : List Nat) (serverWidth tilesAcross : Nat)
    (q : Option (List Char)) (body : List Char) (v : Int)
    (hv : jsParseInt (tileIdxParam q) = some v) :
    ((v < 0 ∨ (serverElements.length : Int) ≤ v) →
      getTileIntersection serverElements serverData serverWidth tilesAcross
        q body = (400, none)) ∧
    (0 ≤ v → v < (serverElements.length : Int) →
      (body = serverElements.getD v.toNat [] →
        getTileIntersection serverElements serverData serverWidth tilesAcross
          q body = (200, some (tileBuffer serverData serverWidth
            (v.toNat % tilesAcross) (v.toNat / tilesAcross) 5))) ∧
      (body ≠ serverElements.getD v.toNat [] →
        getTileIntersection serverElements serverData serverWidth tilesAcross
          q body = (204, none))) := by
  refine ⟨?_, ?_⟩
  · intro hrange
    simp only [getTileIntersection, hv]
    rw [if_pos (by omega)]
  · intro h0 hN
    constructor
    · intro hbody
      simp only [getTileIntersection, hv]
      rw [if_neg (by omega), if_pos hbody]
    · intro hbody
      simp only [getTileIntersection, hv]
      rw [if_neg (by omega), if_neg hbody]

/-- Witness for `getTileIntersection_protocol`: a one-Element server,
`tile_idx=0` and a matching body give 200 with the tile payload;
`tile_idx=5` gives 400. -/
theorem getTileIntersection_protocol_witness :
    getTileIntersection [['a']] [1, 2, 3, 4] 5 1 (some ['0']) ['a'] =
      (200, some (tileBuffer [1, 2, 3, 4] 5 0 0 5)) ∧
    getTileIntersection [['a']] [1, 2, 3, 4] 5 1 (some ['5']) ['a'] =
      (400, none) := by
  constructor
  · exact (((getTileIntersection_protocol [['a']] [1, 2, 3, 4] 5 1
      (some ['0']) ['a'] 0 (by decide)).2 (by decide) (by decide)).1
      (by decide))
  · exact ((getTileIntersection_protocol [['a']] [1, 2, 3, 4] 5 1
      (some ['5']) ['a'] 5 (by decide)).1 (by decide))

/-- C2: the smoothing pass does not work from a pre-smoothing snapshot.  In
`c2Image` tiles 1 and 2 are both non-members (alpha 0 at their top-left
pixels, byte offsets 23 and 43): under the claim, tile 2 — whose only
neighbor, tile 1, is a non-member in the pre-smoothing image — must be
filled solid opaque white.  The code instead smooths tile 1 first (alpha
becomes 255), then reads that freshly smoothed neighbor while processing
tile 2 and fills tile 2 with tile 1's new color `(10,20,30,255)`, not
white. -/
theorem smoothingPass_reads_smoothed_neighbor :
    c2Image.getD 23 0 = 0 ∧
    c2Image.getD 43 0 = 0 ∧
    (smoothingPass 3 1 5 15 c2Image).getD 40 0 = 10 ∧
    (smoothingPass 3 1 5 15 c2Image).getD 41 0 = 20 ∧
    (smoothingPass 3 1 5 15 c2Image).getD 42 0 = 30 ∧
    (smoothingPass 3 1 5 15 c2Image).getD 43 0 = 255 ∧
    (10, 20, 30) ≠ (255, 255, 255) := by
  decide

theorem enumFrom_append' {α : Type} (l1 l2 : List α) (i : Nat) :
    List.enumFrom i (l1 ++ l2) =
      List.enumFrom i l1 ++ List.enumFrom (i + l1.length) l2 := by
  induction l1 generalizing i with
  | nil => simp
  | cons a t ih =>
    have harith : i + 1 + t.length = i + (t.length + 1) := by omega
    simp only [List.cons_append, List.enumFrom, List.append_eq, ih,
      List.length_cons, harith]

theorem highlightWordGo_trace (member : Nat → Bool) (content : List Char) :
    ∀ (w : List Char) (idx : Nat),
      (highlightWordGo member content w idx).2 =
        List.enumFrom idx (segmentWordGo content w) := by
  induction content with
  | nil =>
    intro w idx
    by_cases hw : w = [] <;>
      simp [highlightWordGo, segmentWordGo, hw, List.enumFrom]
  | cons c rest ih =>
    intro w idx
    by_cases hc : isAlphanumeric c
    · simp [highlightWordGo, segmentWordGo, hc, ih]
    · by_cases hw : w = [] <;> by_cases hsp : jsIsSpace c <;>
        simp [highlightWordGo, segmentWordGo, hc, hw, hsp, ih,
          enumFrom_append', List.enumFrom]

theorem redactWordGo_trace (member : Nat → Bool)
    (redactFn : List Char → List Char) (content : List Char) :
    ∀ (w : List Char) (idx : Nat),
      (redactWordGo member redactFn content w idx).2 =
        List.enumFrom idx (segmentWordGo content w) := by
  induction content with
  | nil =>
    intro w idx
    by_cases hw : w = [] <;>
      simp [redactWordGo, segmentWordGo, hw, List.enumFrom]
  | cons c rest ih =>
    intro w idx
    by_cases hc : isAlphanumeric c
    · simp [redactWordGo, segmentWordGo, hc, ih]
    · by_cases hw : w = [] <;> by_cases hsp : jsIsSpace c <;>
        simp [redactWordGo, segmentWordGo, hc, hw, hsp, ih,
          enumFrom_append', List.enumFrom]

/-- C10: both word-mode reconstruction walkers consume token indices in
exactly the order and count of the Segmenter's Element sequence — the
consumption trace of each walk is precisely the enumeration
`(0, e₀), (1, e₁), …` of `segmentWord content`, for every membership set
and every redaction function.  Hence the walk consumes one index per
alphanumeric run, per whitespace character and per punctuation character,
the total equals the Element count, and each membership lookup
`indexSet.has(tokenIdx)` tests exactly the Element corresponding to the
emitted unit. -/
theorem wordWalkers_trace_aligned (member : Nat → Bool)
    (redactFn : List Char → List Char) (content : List Char) :
    (highlightWord member content).2 = (segmentWord content).enum ∧
    (redactWord member redactFn content).2 = (segmentWord content).enum ∧
    (highlightWord member content).2.length = (segmentWord content).length := by
  have h1 := highlightWordGo_trace member content [] 0
  have h2 := redactWordGo_trace member redactFn content [] 0
  refine ⟨?_, ?_, ?_⟩
  · simpa [highlightWord, segmentWord, List.enum] using h1
  · simpa [redactWord, segmentWord, List.enum] using h2
  · simp [highlightWord, segmentWord, List.enum, h1]

theorem get?_set_self {α : Type} (l : List α) (i : Nat) (v : α)
    (h : i < l.length) : (l.set i v).get? i = some v := by
  induction l generalizing i with
  | nil => simp at h
  | cons a t ih =>
    cases i with
    | zero => rfl
    | succ i => exact ih i (by simpa using h)

theorem get?_set_other {α : Type} (l : List α) (i j : Nat) (v : α)
    (h : i ≠ j) : (l.set i v).get? j = l.get? j := by
  induction l generalizing i j with
  | nil => simp
  | cons a t ih =>
    cases i with
    | zero =>
      cases j with
      | zero => exact absurd rfl h
      | succ j => rfl
    | succ i =>
      cases j with
      | zero => rfl
      | succ j => exact ih i j (by omega)

theorem getD_set_self {α : Type} (l : List α) (i : Nat) (v d : α)
    (h : i < l.length) : (l.set i v).getD i d = v := by
  simp [List.getD, ← List.get?_eq_getElem?, get?_set_self l i v h]

theorem getD_set_other {α : Type} (l : List α) (i j : Nat) (v d : α)
    (h : i ≠ j) : (l.set i v).getD j d = l.getD j d := by
  simp [List.getD, ← List.get?_eq_getElem?, get?_set_other l i j v h]

theorem poolInv_init {α : Type} (f : Nat → α) (n limit : Nat) :
    PoolInv f n limit (initPool α n limit) := by
  have hrep : ∀ (w : Nat) (st : WorkerState),
      (List.replicate limit WorkerState.idle).get? w = some st →
      st = WorkerState.idle := fun w st h =>
    List.eq_of_mem_replicate (List.get?_mem h)
  refine ⟨by simp [initPool], by simp [initPool], Nat.zero_le n,
    ?_, ?_, ?_, ?_⟩
  · intro k hk
    exact absurd hk (Nat.not_lt_zero k)
  · intro w w' k hw _
    exact absurd (hrep w _ hw) (by simp)
  · intro k _
    refine ⟨?_, ?_, by simp [initPool]⟩
    · intro w hw
      exact absurd (hrep w _ hw) (by simp)
    · simp only [initPool, List.getD]
      cases h : (List.replicate n (none : Option α)).get? k with
      | none => rfl
      | some v =>
        rw [List.eq_of_mem_replicate (List.get?_mem h)]
        rfl
  · rintro ⟨w, hw⟩
    exact absurd (hrep w _ hw) (by simp)

theorem runsAt_set_iff (ws : List WorkerState) (w : Nat) (v : WorkerState)
    (hwlen : w < ws.length) (w' k : Nat) :
    (ws.set w v).get? w' = some (WorkerState.running k) ↔
      ((w' = w ∧ v = WorkerState.running k) ∨
       (w' ≠ w ∧ ws.get? w' = some (WorkerState.running k))) := by
  by_cases hww : w' = w
  · subst hww
    rw [get?_set_self _ _ _ hwlen]
    simp
  · rw [get?_set_other _ _ _ _ (fun hh => hww hh.symm)]
    simp [hww]

theorem poolInv_step {α : Type} {f : Nat → α} {n limit : Nat}
    {s s' : PoolState α} (hs : PoolInv f n limit s)
    (hstep : PoolStep f n s s') : PoolInv f n limit s' := by
  cases hstep with
  | claim w hw h =>
    have hwlen : w < s.workers.length := List.get?_eq_some.mp hw |>.1
    have hiff := runsAt_set_iff s.workers w
      (WorkerState.running s.nextIndex) hwlen
    refine ⟨hs.hres, by simpa using hs.hwork,
      Nat.succ_le_of_lt h, ?_, ?_, ?_, ?_⟩
    · intro k hk
      have hk2 : k < s.nextIndex + 1 := hk
      by_cases hkj : k = s.nextIndex
      · subst hkj
        left
        obtain ⟨_, hr, hl⟩ := hs.hfresh s.nextIndex (Nat.le_refl _)
        exact ⟨⟨w, (hiff w s.nextIndex).mpr (Or.inl ⟨rfl, rfl⟩)⟩, hr, hl⟩
      · have hk' : k < s.nextIndex := by omega
        rcases hs.hclaim k hk' with ⟨⟨w0, hw0⟩, hr, hl⟩ | ⟨hno, hr, hl⟩
        · left
          have hw0w : w0 ≠ w := by
            intro he
            subst he
            rw [RunsAt, hw] at hw0
            simp at hw0
          exact ⟨⟨w0, (hiff w0 k).mpr (Or.inr ⟨hw0w, hw0⟩)⟩, hr, hl⟩
        · right
          refine ⟨?_, hr, hl⟩
          intro w1 hw1
          rcases (hiff w1 k).mp hw1 with ⟨_, hkj'⟩ | ⟨_, hrs⟩
          · exact hkj (WorkerState.running.inj hkj').symm
          · exact hno w1 hrs
    · intro w1 w2 k h1 h2
      rcases (hiff w1 k).mp h1 with ⟨he1, hk1⟩ | ⟨hne1, hr1⟩ <;>
        rcases (hiff w2 k).mp h2 with ⟨he2, hk2⟩ | ⟨hne2, hr2⟩
      · rw [he1, he2]
      · have hk1' : k = s.nextIndex := (WorkerState.running.inj hk1).symm
        subst hk1'
        exact absurd hr2 ((hs.hfresh s.nextIndex (Nat.le_refl _)).1 w2)
      · have hk2' : k = s.nextIndex := (WorkerState.running.inj hk2).symm
        subst hk2'
        exact absurd hr1 ((hs.hfresh s.nextIndex (Nat.le_refl _)).1 w1)
      · exact hs.huniq w1 w2 k hr1 hr2
    · intro k hk
      have hk2 : s.nextIndex + 1 ≤ k := hk
      obtain ⟨hno, hr, hl⟩ := hs.hfresh k (by omega)
      refine ⟨?_, hr, hl⟩
      intro w1 hw1
      rcases (hiff w1 k).mp hw1 with ⟨_, hkj'⟩ | ⟨_, hrs⟩
      · have : k = s.nextIndex := (WorkerState.running.inj hkj').symm
        omega
      · exact hno w1 hrs
    · rintro ⟨w1, hw1⟩
      have hw1' : (s.workers.set w
          (WorkerState.running s.nextIndex)).get? w1 =
          some WorkerState.finished := hw1
      by_cases hww : w1 = w
      · subst hww
        rw [get?_set_self _ _ _ hwlen] at hw1'
        simp at hw1'
      · rw [get?_set_other _ _ _ _ (fun hh => hww hh.symm)] at hw1'
        have := hs.hfin ⟨w1, hw1'⟩
        have hgoal : n ≤ s.nextIndex + 1 := by omega
        exact hgoal
  | complete w k hw =>
    have hwlen : w < s.workers.length := List.get?_eq_some.mp hw |>.1
    have hiff := runsAt_set_iff s.workers w WorkerState.idle hwlen
    have hkcl : k < s.nextIndex := by
      by_contra hge
      exact (hs.hfresh k (by omega)).1 w hw
    have hklen : k < s.results.length := by
      have hle := hs.hnext
      rw [hs.hres]
      omega
    rcases hs.hclaim k hkcl with ⟨_, hrk, hlk⟩ | ⟨hno, _, _⟩
    · refine ⟨by simpa using hs.hres, by simpa using hs.hwork, hs.hnext,
        ?_, ?_, ?_, ?_⟩
      · intro k' hk'
        have hk2 : k' < s.nextIndex := hk'
        by_cases hkk : k' = k
        · subst hkk
          right
          refine ⟨?_, ?_, ?_⟩
          · intro w1 hw1
            rcases (hiff w1 k').mp hw1 with ⟨_, hv⟩ | ⟨hne, hrs⟩
            · exact absurd hv (by simp)
            · exact hne (hs.huniq w1 w k' hrs hw)
          · exact getD_set_self _ _ _ _ hklen
          · show (s.log ++ [k']).count k' = 1
            simp [List.count_append, hlk]
        · rcases hs.hclaim k' hk2 with ⟨⟨w0, hw0⟩, hr, hl⟩ | ⟨hno', hr, hl⟩
          · left
            have hw0w : w0 ≠ w := by
              intro he
              subst he
              rw [RunsAt, hw] at hw0
              simp only [Option.some_inj] at hw0
              exact hkk (WorkerState.running.inj hw0).symm
            refine ⟨⟨w0, (hiff w0 k').mpr (Or.inr ⟨hw0w, hw0⟩)⟩, ?_, ?_⟩
            · rw [getD_set_other _ _ _ _ _ (fun hh => hkk hh.symm)]
              exact hr
            · show (s.log ++ [k]).count k' = 0
              simp [List.count_append, hl, hkk]
          · right
            refine ⟨?_, ?_, ?_⟩
            · intro w1 hw1
              rcases (hiff w1 k').mp hw1 with ⟨_, hv⟩ | ⟨_, hrs⟩
              · exact absurd hv (by simp)
              · exact hno' w1 hrs
            · rw [getD_set_other _ _ _ _ _ (fun hh => hkk hh.symm)]
              exact hr
            · show (s.log ++ [k]).count k' = 1
              simp [List.count_append, hl, hkk]
      · intro w1 w2 k' h1 h2
        rcases (hiff w1 k').mp h1 with ⟨_, hv⟩ | ⟨_, hr1⟩
        · exact absurd hv (by simp)
        · rcases (hiff w2 k').mp h2 with ⟨_, hv⟩ | ⟨_, hr2⟩
          · exact absurd hv (by simp)
          · exact hs.huniq w1 w2 k' hr1 hr2
      · intro k' hk'
        have hk2 : s.nextIndex ≤ k' := hk'
        have hkk : k' ≠ k := by omega
        obtain ⟨hno', hr, hl⟩ := hs.hfresh k' hk2
        refine ⟨?_, ?_, ?_⟩
        · intro w1 hw1
          rcases (hiff w1 k').mp hw1 with ⟨_, hv⟩ | ⟨_, hrs⟩
          · exact absurd hv (by simp)
          · exact hno' w1 hrs
        · rw [getD_set_other _ _ _ _ _ (fun hh => hkk hh.symm)]
          exact hr
        · show (s.log ++ [k]).count k' = 0
          simp [List.count_append, hl, hkk]
      · rintro ⟨w1, hw1⟩
        have hw1' : (s.workers.set w WorkerState.idle).get? w1 =
            some WorkerState.finished := hw1
        by_cases hww : w1 = w
        · subst hww
          rw [get?_set_self _ _ _ hwlen] at hw1'
          simp at hw1'
        · rw [get?_set_other _ _ _ _ (fun hh => hww hh.symm)] at hw1'
          exact hs.hfin ⟨w1, hw1'⟩
    · exact absurd hw (hno w)
  | exit w hw h =>
    have hwlen : w < s.workers.length := List.get?_eq_some.mp hw |>.1
    have hiff := runsAt_set_iff s.workers w WorkerState.finished hwlen
    refine ⟨hs.hres, by simpa using hs.hwork, hs.hnext, ?_, ?_, ?_, ?_⟩
    · intro k hk
      have hk2 : k < s.nextIndex := hk
      rcases hs.hclaim k hk2 with ⟨⟨w0, hw0⟩, hr, hl⟩ | ⟨hno, hr, hl⟩
      · left
        have hw0w : w0 ≠ w := by
          intro he
          subst he
          rw [RunsAt, hw] at hw0
          simp at hw0
        exact ⟨⟨w0, (hiff w0 k).mpr (Or.inr ⟨hw0w, hw0⟩)⟩, hr, hl⟩
      · right
        refine ⟨?_, hr, hl⟩
        intro w1 hw1
        rcases (hiff w1 k).mp hw1 with ⟨_, hv⟩ | ⟨_, hrs⟩
        · exact absurd hv (by simp)
        · exact hno w1 hrs
    · intro w1 w2 k h1 h2
      rcases (hiff w1 k).mp h1 with ⟨_, hv⟩ | ⟨_, hr1⟩
      · exact absurd hv (by simp)
      · rcases (hiff w2 k).mp h2 with ⟨_, hv⟩ | ⟨_, hr2⟩
        · exact absurd hv (by simp)
        · exact hs.huniq w1 w2 k hr1 hr2
    · intro k hk
      have hk2 : s.nextIndex ≤ k := hk
      obtain ⟨hno, hr, hl⟩ := hs.hfresh k hk2
      refine ⟨?_, hr, hl⟩
      intro w1 hw1
      rcases (hiff w1 k).mp hw1 with ⟨_, hv⟩ | ⟨_, hrs⟩
      · exact absurd hv (by simp)
      · exact hno w1 hrs
    · intro _
      have hgoal : n ≤ s.nextIndex := by omega
      exact hgoal

theorem poolInv_reach {α : Type} (f : Nat → α) (n limit : Nat)
    (s : PoolState α)
    (h : Relation.ReflTransGen (PoolStep f n) (initPool α n limit) s) :
    PoolInv f n limit s := by
  induction h with
  | refl => exact poolInv_init f n limit
  | tail _ hbc ih => exact poolInv_step ih hbc

/-- C9: for every scheduling of the worker pool started with at least one
worker, at any state where `await Promise.all(workers)` has resolved (the
barrier behind which alone the smoothing pass runs), every queued
micro-session function has been executed exactly once, and the results
array is positionally aligned: `results[i]` holds the value of the `i`-th
micro-session for every `i < n`. -/
theorem runWithConcurrency_correct {α : Type} (f : Nat → α)
    (n limit : Nat) (hlimit : 0 < limit) (s : PoolState α)
    (hreach : Relation.ReflTransGen (PoolStep f n) (initPool α n limit) s)
    (hdone : PoolDone s) :
    s.results = (List.range n).map (fun k => some (f k)) ∧
    (∀ k, k < n → s.log.count k = 1) ∧
    (∀ k, n ≤ k → s.log.count k = 0) := by
  have hinv := poolInv_reach f n limit s hreach
  have hN : n ≤ s.nextIndex := by
    have h0 : 0 < s.workers.length := by rw [hinv.hwork]; exact hlimit
    cases h0' : s.workers.get? 0 with
    | none =>
      rw [List.get?_eq_none] at h0'
      omega
    | some y =>
      have hy : y = WorkerState.finished := hdone y (List.get?_mem h0')
      exact hinv.hfin ⟨0, by rw [h0', hy]⟩
  have hnorun : ∀ w k, ¬ RunsAt s w k := by
    intro w k hr
    have := hdone _ (List.get?_mem hr)
    simp at this
  have hcl : ∀ k, k < n →
      s.results.getD k none = some (f k) ∧ s.log.count k = 1 := by
    intro k hk
    rcases hinv.hclaim k (by omega) with ⟨⟨w, hw⟩, _, _⟩ | ⟨_, hr, hl⟩
    · exact absurd hw (hnorun w k)
    · exact ⟨hr, hl⟩
  refine ⟨?_, fun k hk => (hcl k hk).2,
    fun k hk => (hinv.hfresh k (Nat.le_trans hinv.hnext hk)).2.2⟩
  apply List.ext_get?
  intro i
  by_cases hi : i < n
  · have hil : i < s.results.length := by rw [hinv.hres]; exact hi
    cases hx : s.results.get? i with
    | none =>
      rw [List.get?_eq_none] at hx
      omega
    | some x =>
      have hD : s.results.getD i none = x := by
        simp [List.getD, ← List.get?_eq_getElem?, hx]
      have hx2 : x = some (f i) := by rw [← hD]; exact (hcl i hi).1
      rw [hx2, List.get?_map, List.get?_range hi]
      rfl
  · have h1 : s.results.get? i = none := by
      rw [List.get?_eq_none, hinv.hres]
      omega
    have h2 : ((List.range n).map (fun k => some (f k))).get? i = none := by
      rw [List.get?_eq_none]
      simpa using Nat.le_of_not_lt hi
    rw [h1, h2]

/-- Witness for `runWithConcurrency_correct`: one worker, one queued
function `fun k => k + 7`, and the schedule claim–complete–exit. -/
theorem runWithConcurrency_correct_witness :
    (0 : Nat) < 1 ∧
    (⟨1, [some 7], [WorkerState.finished], [0]⟩ : PoolState Nat).results =
      (List.range 1).map (fun k => some (k + 7)) := by
  have h1 : PoolStep (fun k : Nat => k + 7) 1 (initPool Nat 1 1)
      (⟨1, [none], [WorkerState.running 0], []⟩ : PoolState Nat) :=
    PoolStep.claim (initPool Nat 1 1) 0 rfl (by decide)
  have h2 : PoolStep (fun k : Nat => k + 7) 1
      (⟨1, [none], [WorkerState.running 0], []⟩ : PoolState Nat)
      (⟨1, [some 7], [WorkerState.idle], [0]⟩ : PoolState Nat) :=
    PoolStep.complete _ 0 0 rfl
  have h3 : PoolStep (fun k : Nat => k + 7) 1
      (⟨1, [some 7], [WorkerState.idle], [0]⟩ : PoolState Nat)
      (⟨1, [some 7], [WorkerState.finished], [0]⟩ : PoolState Nat) :=
    PoolStep.exit _ 0 rfl (by decide)
  have hreach : Relation.ReflTransGen (PoolStep (fun k : Nat => k + 7) 1)
      (initPool Nat 1 1)
      (⟨1, [some 7], [WorkerState.finished], [0]⟩ : PoolState Nat) :=
    Relation.ReflTransGen.head h1 (Relation.ReflTransGen.head h2
      (Relation.ReflTransGen.head h3 Relation.ReflTransGen.refl))
  have hdone : PoolDone
      (⟨1, [some 7], [WorkerState.finished], [0]⟩ : PoolState Nat) := by
    intro w hw
    simpa using hw
  exact ⟨Nat.one_pos, (runWithConcurrency_correct (fun k => k + 7) 1 1
    Nat.one_pos _ hreach hdone).1⟩

end Psi
